import Mathlib

/-!
Verification of the dlt extract / normalize / load-package engine spec.

The repository ships its pipeline test suite (tests/pipeline/test_pipeline.py)
but the engine implementation itself is not under src/.  Following the spec
(spec.md), the definitions below shallowly embed the data model and the
operations that the claims quantify over; each definition that stands in for
a missing implementation file says so in its doc comment.
-/

namespace Dlt

/-- Modelled from the spec: scalar values carried by rows (the normalizer
types them as bigint, text, boolean; absent values are null). -/
inductive TVal where
  | int : Int → TVal
  | str : String → TVal
  | bool : Bool → TVal
  | null : TVal
deriving DecidableEq, Repr

mutual

/-- Modelled from the spec: a semi-structured item produced by a Pipe —
a scalar, a nested object (ordered fields), or a nested list. -/
inductive Doc where
  | leaf : TVal → Doc
  | obj : Fields → Doc
  | arr : Docs → Doc

/-- Ordered field list of a nested object. -/
inductive Fields where
  | nil : Fields
  | cons : String → Doc → Fields → Fields

/-- Elements of a nested list. -/
inductive Docs where
  | nil : Docs
  | cons : Doc → Docs → Docs

end

/-- Build an ordered field list from a plain list of name/document pairs. -/
def Fields.ofList : List (String × Doc) → Fields
  | [] => .nil
  | p :: rest => .cons p.1 p.2 (Fields.ofList rest)

/-- Build list elements from a plain list of documents. -/
def Docs.ofList : List Doc → Docs
  | [] => .nil
  | d :: rest => .cons d (Docs.ofList rest)

/-- Modelled from the spec: the deterministic path-join naming rule used by
the flattening step — nested object fields are promoted to parent columns
named by joining the path with a double underscore. -/
def pathJoin (pfx name : String) : String :=
  if pfx = "" then name else pfx ++ "__" ++ name

/-- A normalized (flat, typed) row as written into a table file: its table
name, the generated unique id, the parent link of child rows (parent row id
and parent table name), the zero-based list index of child rows, and the
flattened data columns in insertion order. -/
structure NRow where
  table : String
  rowId : Nat
  parentId : Option Nat
  parentTable : Option String
  listIdx : Option Nat
  cols : List (String × TVal)
deriving DecidableEq, Repr

mutual

/-- Modelled from the spec: flattening of the ordered fields of one object
into the columns of the row with id selfId of table tbl.  Nested object
fields are promoted to parent columns under the path-joined name; a nested
list under field path p produces child rows of the child table tbl__p.
Returns the next fresh row id, the flattened columns, and all child rows. -/
def normFields (tbl pfx : String) (selfId ctr : Nat) :
    Fields → Nat × List (String × TVal) × List NRow
  | .nil => (ctr, [], [])
  | .cons name d rest =>
    match d with
    | .leaf v =>
      let b := normFields tbl pfx selfId ctr rest
      (b.1, (pathJoin pfx name, v) :: b.2.1, b.2.2)
    | .obj gs =>
      let a := normFields tbl (pathJoin pfx name) selfId ctr gs
      let b := normFields tbl pfx selfId a.1 rest
      (b.1, a.2.1 ++ b.2.1, a.2.2 ++ b.2.2)
    | .arr es =>
      let a := normList (tbl ++ "__" ++ pathJoin pfx name) tbl selfId ctr 0 es
      let b := normFields tbl pfx selfId a.1 rest
      (b.1, b.2.1, a.2 ++ b.2.2)

/-- Modelled from the spec: normalization of the elements of a nested list
into child rows of table ctbl, one synthetic row per element, each linked to
the parent row pid of table ptbl and numbered by a zero-based list index. -/
def normList (ctbl ptbl : String) (pid ctr i : Nat) :
    Docs → Nat × List NRow
  | .nil => (ctr, [])
  | .cons d rest =>
    let a := normChild ctbl ptbl pid i ctr d
    let b := normList ctbl ptbl pid a.1 (i + 1) rest
    (b.1, a.2 ++ b.2)

/-- Modelled from the spec: one list element becomes one child row carrying
its generated id, the parent-id reference and the list index; its own nested
structure recurses with the child table as the new parent. -/
def normChild (ctbl ptbl : String) (pid i ctr : Nat) :
    Doc → Nat × List NRow
  | .leaf v => (ctr + 1, [⟨ctbl, ctr, some pid, some ptbl, some i, [("value", v)]⟩])
  | .obj fs =>
    let a := normFields ctbl "" ctr (ctr + 1) fs
    (a.1, ⟨ctbl, ctr, some pid, some ptbl, some i, a.2.1⟩ :: a.2.2)
  | .arr es =>
    let a := normList (ctbl ++ "__value") ctbl ctr (ctr + 1) 0 es
    (a.1, ⟨ctbl, ctr, some pid, some ptbl, some i, []⟩ :: a.2)

end

mutual

/-- Modelled from the spec: normalization of one extracted item into rows of
table tbl.  An object item always yields its own row — even when every field
is absent or null — plus the child rows of its nested lists. -/
def normItem (tbl : String) (ctr : Nat) : Doc → Nat × List NRow
  | .leaf v => (ctr + 1, [⟨tbl, ctr, none, none, none, [("value", v)]⟩])
  | .obj fs =>
    let a := normFields tbl "" ctr (ctr + 1) fs
    (a.1, ⟨tbl, ctr, none, none, none, a.2.1⟩ :: a.2.2)
  | .arr es => normItems tbl ctr es

/-- Normalization of a sequence of items into rows of one table. -/
def normItems (tbl : String) (ctr : Nat) : Docs → Nat × List NRow
  | .nil => (ctr, [])
  | .cons d rest =>
    let a := normItem tbl ctr d
    let b := normItems tbl a.1 rest
    (b.1, a.2 ++ b.2)

end

/-- Modelled from the spec: one normalization run over the staged items of a
resource, threading the generated-id counter through every produced row. -/
def normalizeRun (tbl : String) (ctr : Nat) : List Doc → Nat × List NRow
  | [] => (ctr, [])
  | d :: rest =>
    let a := normItem tbl ctr d
    let b := normalizeRun tbl a.1 rest
    (b.1, a.2 ++ b.2)

/-- The rows of one table among the normalized output. -/
def rowsOf (tbl : String) (rows : List NRow) : List NRow :=
  rows.filter (fun r => r.table == tbl)

/-- Table metadata recorded in the Schema: the parent-table link of child
tables and the owning resource name of root tables. -/
structure TableMeta where
  parent : Option String
  resource : Option String
deriving DecidableEq, Repr

/-- Modelled from the spec: the schema entry inferred for a table from the
normalized rows — a child table is linked to its parent table and is not
owned by a resource; a root table is owned by the producing resource. -/
def inferTableMeta (resourceName tbl : String) (rows : List NRow) :
    Option TableMeta :=
  match rows.find? (fun r => r.table == tbl) with
  | none => none
  | some r =>
    match r.parentTable with
    | some p => some ⟨some p, none⟩
    | none => some ⟨none, some resourceName⟩

/-- Plain scalar fields turned into leaf-valued object fields. -/
def leafFields (xs : List (String × TVal)) : List (String × Doc) :=
  xs.map (fun p => (p.1, Doc.leaf p.2))

/-- The columns that a list of scalar fields flattens to under a prefix. -/
def leafCols (pfx : String) (xs : List (String × TVal)) : List (String × TVal) :=
  xs.map (fun p => (pathJoin pfx p.1, p.2))

/-- A flat object document built from scalar fields only. -/
def flatObj (fs : List (String × TVal)) : Doc :=
  .obj (Fields.ofList (leafFields fs))

/-- The value a normalized row holds in a given column; absent columns read
as null. -/
def colVal (c : String) (r : NRow) : TVal :=
  match r.cols.find? (fun q => q.1 == c) with
  | some q => q.2
  | none => TVal.null

/-! ## Schema columns (claim C7)

Modelled from the spec: a Table is a mapping from column name to Column with
insertion order preserved; inference merges column additions, never removes
or reorders what is already established. -/

/-- Inferred column data types. -/
inductive ColType where
  | bigint
  | text
  | boolean
deriving DecidableEq, Repr

/-- Modelled from the spec: the data type inferred from a value; a null
value establishes no column. -/
def inferColType : TVal → Option ColType
  | .int _ => some .bigint
  | .str _ => some .text
  | .bool _ => some .boolean
  | .null => none

/-- Whether the table already has a column of the given name. -/
def hasCol (cols : List (String × ColType)) (n : String) : Bool :=
  cols.any (fun c => c.1 == n)

/-- Add one inferred column: appended at the end if new, untouched if the
name is already established. -/
def addColumn (cols : List (String × ColType)) (n : String) (t : ColType) :
    List (String × ColType) :=
  if hasCol cols n then cols else cols ++ [(n, t)]

/-- Modelled from the spec: merge the shape of one item into the column
list of its table, walking the fields in insertion order. -/
def updateColumns (cols : List (String × ColType)) (row : List (String × TVal)) :
    List (String × ColType) :=
  row.foldl
    (fun acc p =>
      match inferColType p.2 with
      | none => acc
      | some t => addColumn acc p.1 t)
    cols

/-- Merge a sequence of extracted items into the column list of a table. -/
def updateTable (cols : List (String × ColType)) (rows : List (List (String × TVal))) :
    List (String × ColType) :=
  rows.foldl updateColumns cols

/-- The columns that one item would establish on its own, in field order. -/
def rowCols (row : List (String × TVal)) : List (String × ColType) :=
  row.filterMap (fun p => (inferColType p.2).map (fun t => (p.1, t)))

/-- The columns an item adds to an existing column list, in field order. -/
def newColsOf (acc : List (String × ColType)) : List (String × TVal) →
    List (String × ColType)
  | [] => []
  | p :: rest =>
    match inferColType p.2 with
    | none => newColsOf acc rest
    | some t =>
      if hasCol acc p.1 then newColsOf acc rest
      else (p.1, t) :: newColsOf (acc ++ [(p.1, t)]) rest

/-- The shape of an item: its field names with their inferred types. -/
def rowShape (row : List (String × TVal)) : List (String × Option ColType) :=
  row.map (fun p => (p.1, inferColType p.2))

/-! ## Source extraction (claim C2)

Modelled from the spec: a Source is consumed exactly once; each Pipe of a
Resource is drained to completion on the first extraction; a second attempt
fails with SourceExhausted carrying the source name, wrapped in the
step-failure envelope. -/

/-- A Resource: a named unit of production with its Pipe of items. -/
structure DltResource where
  name : String
  pipe : List Doc

/-- A Source instance: a named bundle of Resources with its consumed flag. -/
structure DltSource where
  name : String
  resources : List DltResource
  exhausted : Bool

/-- The exceptions the extract step wraps. -/
inductive ExtractException where
  | sourceExhausted (sourceName : String)
deriving DecidableEq, Repr

/-- The step-failure envelope: which step failed and the underlying cause. -/
structure StepFailed where
  step : String
  exception : ExtractException
deriving DecidableEq, Repr

/-- Draining the Pipe of one Resource to completion: every item of the pipe
is accounted for exactly once in the staged output of that resource. -/
def drainPipe (r : DltResource) : String × List Doc :=
  (r.name, r.pipe)

/-- Modelled from the spec: extracting a Source.  A fresh Source drains each
of its Pipes exactly once and is marked consumed; an exhausted Source fails
with SourceExhausted carrying the source name inside the envelope. -/
def extractSource (s : DltSource) :
    Except StepFailed (DltSource × List (String × List Doc)) :=
  if s.exhausted then
    .error ⟨"extract", .sourceExhausted s.name⟩
  else
    .ok (⟨s.name, s.resources, true⟩, s.resources.map drainPipe)

/-! ## Multi-source extraction and rollback (claim C1)

Modelled from the spec: extraction over an ordered sequence of Sources
commits the Schema and State mutations of each Source as it completes; on a
failure mid-Source, the mutations of that Source are rolled back to the
pre-extraction snapshot and the error names the incomplete Source. -/

/-- One observable action of a Source during extraction: a Schema table
update, a State write, or a raised exception. -/
inductive SAction where
  | addTable (table : String) (columns : List String)
  | setState (key value : String)
  | fail
deriving DecidableEq, Repr

/-- A Source as the extract step sees it: its name, the Schema it owns, and
the actions it performs while being drained. -/
structure MSource where
  name : String
  schemaName : String
  actions : List SAction
deriving Repr

/-- The persisted Schemas and per-source State of a pipeline. -/
structure PipelineData where
  schemas : List (String × List (String × List String))
  sourceState : List (String × List (String × String))
deriving DecidableEq, Repr

/-- Insert or update one key of an association list. -/
def putAssoc {β : Type} (k : String) (f : Option β → β) :
    List (String × β) → List (String × β)
  | [] => [(k, f none)]
  | p :: rest => if p.1 == k then (k, f (some p.2)) :: rest else p :: putAssoc k f rest

/-- Look up one key of an association list. -/
def lookupAssoc {β : Type} (k : String) (l : List (String × β)) : Option β :=
  (l.find? (fun p => p.1 == k)).map Prod.snd

/-- Apply one action of a Source to the working Schema/State; a raised
exception yields none. -/
def applyAction (d : PipelineData) (schemaName srcName : String) :
    SAction → Option PipelineData
  | .addTable t cols =>
    some ⟨putAssoc schemaName (fun o => putAssoc t (fun _ => cols) (o.getD [])) d.schemas,
          d.sourceState⟩
  | .setState k v =>
    some ⟨d.schemas,
          putAssoc srcName (fun o => putAssoc k (fun _ => v) (o.getD [])) d.sourceState⟩
  | .fail => none

/-- Run the actions of one Source over a working copy of the snapshot. -/
def runActions (d : PipelineData) (schemaName srcName : String) :
    List SAction → Option PipelineData
  | [] => some d
  | a :: rest =>
    match applyAction d schemaName srcName a with
    | none => none
    | some d2 => runActions d2 schemaName srcName rest

/-- Modelled from the spec: extract one Source.  On success its mutations
are committed; on any failure mid-Source every mutation attributable to it
is discarded — the caller keeps the pre-extraction snapshot — and the error
carries the name of the incomplete Source. -/
def runSource (d : PipelineData) (s : MSource) : Except String PipelineData :=
  match runActions d s.schemaName s.name s.actions with
  | some d2 => .ok d2
  | none => .error s.name

/-- Modelled from the spec: extraction over an ordered sequence of Sources.
Sources that complete remain committed; the first failing Source stops the
call, its mutations rolled back, and its name is reported. -/
def extractAll (d : PipelineData) : List MSource → PipelineData × Option String
  | [] => (d, none)
  | s :: rest =>
    match runSource d s with
    | .ok d2 => extractAll d2 rest
    | .error n => (d, some n)

/-! ## Active-pipeline registry (claims C3 and C4)

Modelled from the spec: one active-pipeline registry per process, keyed by
identity; exactly one Pipeline may be active; creating or attaching to a
Pipeline activates it and deactivates the previously active one. -/

/-- The process-wide registry: the known pipeline names and the single
currently active one. -/
structure PipelineRegistry where
  known : List String
  activePipeline : Option String
deriving DecidableEq, Repr

/-- The registry of a fresh process: nothing known, nothing active. -/
def PipelineRegistry.empty : PipelineRegistry := ⟨[], none⟩

/-- Whether the named pipeline is the active one. -/
def isActive (n : String) (r : PipelineRegistry) : Bool :=
  r.activePipeline == some n

/-- Modelled from the spec: creating or attaching to a Pipeline registers it
when new and activates it, deactivating any previously active one. -/
def createOrAttach (n : String) (r : PipelineRegistry) : PipelineRegistry :=
  ⟨if r.known.contains n then r.known else r.known ++ [n], some n⟩

/-- Explicit activation behaves as attaching to an existing pipeline. -/
def activatePipeline (n : String) (r : PipelineRegistry) : PipelineRegistry :=
  createOrAttach n r

/-- The error raised by deactivating a pipeline that is not active. -/
inductive RegistryError where
  | pipelineNotActive (name : String)
deriving DecidableEq, Repr

/-- Modelled from the spec: explicit deactivation; calling it on a Pipeline
that is not the active one fails. -/
def deactivate (n : String) (r : PipelineRegistry) :
    Except RegistryError PipelineRegistry :=
  if isActive n r then .ok ⟨r.known, none⟩ else .error (.pipelineNotActive n)

/-- The registry operations a process may perform. -/
inductive RegOp where
  | createOrAttach (n : String)
  | activate (n : String)
  | deactivate (n : String)
deriving Repr

/-- Apply one registry operation; a failing deactivation leaves the
registry as it was. -/
def applyOp (r : PipelineRegistry) : RegOp → PipelineRegistry
  | .createOrAttach n => createOrAttach n r
  | .activate n => activatePipeline n r
  | .deactivate n =>
    match deactivate n r with
    | .ok r2 => r2
    | .error _ => r

/-- Apply a sequence of registry operations. -/
def applyOps (r : PipelineRegistry) : List RegOp → PipelineRegistry
  | [] => r
  | op :: rest => applyOps (applyOp r op) rest

/-- How many of the known pipelines are active. -/
def countActive (r : PipelineRegistry) : Nat :=
  (r.known.filter (fun n => isActive n r)).length

/-! ## State access through handles (claim C4) -/

/-- The whole process: the registry plus the persisted State of every known
pipeline, as source-keyed namespaces of key/value pairs. -/
structure ProcessState where
  registry : PipelineRegistry
  pipelineStates : List (String × List (String × List (String × String)))
deriving Repr

/-- The error raised when State is read while no Pipeline is active. -/
inductive StateAccessError where
  | stateNotAvailable (sourceName : String)
deriving DecidableEq, Repr

/-- Modelled from the spec: reading State through a Source handle resolves
through the process-wide registry at access time: it returns the state
namespace of whichever Pipeline is active at that moment — the pipeline
under which the handle was created plays no part — and fails when none is
active. -/
def sourceStateAccess (ps : ProcessState) (_handleOrigin sourceName : String) :
    Except StateAccessError (List (String × String)) :=
  match ps.registry.activePipeline with
  | none => .error (.stateNotAvailable sourceName)
  | some p =>
    .ok (((lookupAssoc p ps.pipelineStates).getD []
          |> lookupAssoc sourceName).getD [])

/-! ## Load step and the failed-jobs policy (claim C8)

Modelled from the spec: a package with any failed job and the
raise-on-failed-jobs policy enabled turns the load step into a fatal error
exposing the destination name, the load id and the job error, recording the
package as aborted; with the policy disabled the step completes and the
failure is queryable via introspection. -/

/-- The terminal states a Job can reach inside a package. -/
inductive JobState where
  | newJob
  | running
  | retryJob
  | completed
  | failed (error : String)
deriving DecidableEq, Repr

/-- One file-to-destination transfer unit. -/
structure LoadJob where
  name : String
  state : JobState
deriving DecidableEq, Repr

/-- A load package as the load step sees it. -/
structure LoadPackage where
  loadId : String
  jobs : List LoadJob
deriving DecidableEq, Repr

/-- The outcome recorded on the package by the load step. -/
inductive PackageOutcome where
  | loaded
  | aborted
deriving DecidableEq, Repr

/-- The terminal destination exception for a permanently failed job,
exposing the destination name, the load id and the job error. -/
structure LoadClientJobFailed where
  destinationName : String
  loadId : String
  jobError : String
  terminal : Bool
deriving DecidableEq, Repr

/-- The step-failure envelope of the load step. -/
structure LoadStepFailed where
  step : String
  cause : LoadClientJobFailed
deriving DecidableEq, Repr

/-- The introspectable result of a completed load step. -/
structure LoadResult where
  destinationName : String
  loadId : String
  failedJobErrors : List String
deriving DecidableEq, Repr

/-- Package introspection: whether any job of the load ended failed. -/
def LoadResult.hasFailedJobs (li : LoadResult) : Bool :=
  !li.failedJobErrors.isEmpty

/-- The error of a job when it ended in the failed state. -/
def jobFailedError : JobState → Option String
  | .failed e => some e
  | _ => none

/-- The errors of all failed jobs of a package, in job order. -/
def failedErrors (jobs : List LoadJob) : List String :=
  jobs.filterMap (fun j => jobFailedError j.state)

/-- Modelled from the spec: drive one package through the load step under
the raise-on-failed-jobs policy. -/
def runLoadStep (raiseOnFailedJobs : Bool) (destName : String) (pkg : LoadPackage) :
    PackageOutcome × Except LoadStepFailed LoadResult :=
  match (failedErrors pkg.jobs).head?, raiseOnFailedJobs with
  | some e, true => (.aborted, .error ⟨"load", ⟨destName, pkg.loadId, e, true⟩⟩)
  | _, _ => (.loaded, .ok ⟨destName, pkg.loadId, failedErrors pkg.jobs⟩)

/-! ## Deferred-computation worker pool (claim C9)

Modelled from the spec: deferred computations are submitted to a bounded
worker pool and resolved before being treated as rows; out-of-order
completion is waited for, every item is accounted for exactly once, and the
pool size changes only the completion schedule, never the delivered rows. -/

/-- A deferred computation: its running time and the row it resolves to. -/
structure DeferredItem (α : Type) where
  dur : Nat
  row : α
deriving DecidableEq, Repr

/-- The index of the worker that frees up first. -/
def minFinishIdx : List Nat → Nat
  | [] => 0
  | [_] => 0
  | x :: y :: rest =>
    let j := minFinishIdx (y :: rest)
    if x ≤ (y :: rest).getD j 0 then 0 else j + 1

/-- Submit one deferred computation to the worker that frees up first;
returns the updated worker free-times and the completion time. -/
def assignWorker (pool : List Nat) (dur : Nat) : List Nat × Nat :=
  let i := minFinishIdx pool
  let f := pool.getD i 0 + dur
  (pool.set i f, f)

/-- Run all deferred computations through the pool in submission order,
tagging each resolved row with its completion time. -/
def runPool {α : Type} (pool : List Nat) : List (DeferredItem α) → List (Nat × α)
  | [] => []
  | it :: rest =>
    let a := assignWorker pool it.dur
    (a.2, it.row) :: runPool a.1 rest

/-- Insert one completed row into a completion-ordered list. -/
def insertByFinish {α : Type} (x : Nat × α) : List (Nat × α) → List (Nat × α)
  | [] => [x]
  | y :: rest => if x.1 ≤ y.1 then x :: y :: rest else y :: insertByFinish x rest

/-- Order resolved rows by completion time. -/
def sortByFinish {α : Type} : List (Nat × α) → List (Nat × α)
  | [] => []
  | x :: rest => insertByFinish x (sortByFinish rest)

/-- Modelled from the spec: drain a sequence of deferred computations
through a worker pool of the given size; the delivered rows appear in
completion order. -/
def drainPool {α : Type} (n : Nat) (items : List (DeferredItem α)) : List α :=
  (sortByFinish (runPool (List.replicate n 0) items)).map Prod.snd

/-! ## Load-package lifecycle (claim C10)

Modelled from the spec: the state machine per package is extracted,
normalized, loaded; the load id assigned at extraction identifies the same
package through all stages and the job counts of the extracted package are
carried into the normalized one. -/

/-- The lifecycle states of a load package. -/
inductive PackageState where
  | extracted
  | normalized
  | loadedPkg
deriving DecidableEq, Repr

/-- A staged package in pipeline storage. -/
structure StagedPackage where
  loadId : String
  state : PackageState
  newJobs : Nat
deriving DecidableEq, Repr

/-- Modelled from the spec: the normalize step consumes every extracted
package under its load id, rewriting its staged files into the same number
of jobs and advancing its state to normalized. -/
def normalizeStep (pkgs : List StagedPackage) : List StagedPackage :=
  pkgs.map (fun p =>
    if p.state = .extracted then ⟨p.loadId, .normalized, p.newJobs⟩ else p)

/-- Modelled from the spec: the load step drives every normalized package
to completion under its load id. -/
def loadStep (pkgs : List StagedPackage) : List StagedPackage :=
  pkgs.map (fun p =>
    if p.state = .normalized then ⟨p.loadId, .loadedPkg, p.newJobs⟩ else p)

/-- The load ids of the packages sitting in the extracted stage. -/
def listExtracted (pkgs : List StagedPackage) : List String :=
  (pkgs.filter (fun p => p.state == .extracted)).map (fun p => p.loadId)

/-- The load ids of the packages sitting in the normalized stage. -/
def listNormalized (pkgs : List StagedPackage) : List String :=
  (pkgs.filter (fun p => p.state == .normalized)).map (fun p => p.loadId)

/-- The load ids of the completed packages. -/
def listCompleted (pkgs : List StagedPackage) : List String :=
  (pkgs.filter (fun p => p.state == .loadedPkg)).map (fun p => p.loadId)

/-! ## Theorems -/

/-- Claim C2: extracting a fresh Source succeeds — it never raises the
exhaustion error — drains the Pipe of each Resource exactly once, marks the
instance consumed, and any subsequent extraction attempt on it fails with
SourceExhausted carrying the source name inside the extract step-failure
envelope. -/
theorem source_consumed_exactly_once (s : DltSource) (h : s.exhausted = false) :
    extractSource s =
      .ok (⟨s.name, s.resources, true⟩, s.resources.map (fun r => (r.name, r.pipe))) ∧
    extractSource (⟨s.name, s.resources, true⟩ : DltSource) =
      .error ⟨"extract", .sourceExhausted s.name⟩ := by
  constructor
  · simp [extractSource, h, drainPipe]
  · simp [extractSource]

/-- Witness for claim C2 at a concrete one-resource source. -/
theorem source_consumed_exactly_once_witness :
    extractSource ⟨"source", [⟨"some_data", [Doc.leaf (.int 1)]⟩], false⟩ =
      .ok (⟨"source", [⟨"some_data", [Doc.leaf (.int 1)]⟩], true⟩,
           [("some_data", [Doc.leaf (.int 1)])]) ∧
    extractSource ⟨"source", [⟨"some_data", [Doc.leaf (.int 1)]⟩], true⟩ =
      .error ⟨"extract", .sourceExhausted "source"⟩ :=
  source_consumed_exactly_once ⟨"source", [⟨"some_data", [Doc.leaf (.int 1)]⟩], false⟩ rfl

/-- Claim C3: at every point of a process execution at most one Pipeline is
active in the process-wide registry; creating or attaching to a Pipeline
activates it and deactivates the previously active one; deactivating a
Pipeline that is not active fails with the pipeline-not-active error. -/
theorem one_active_pipeline :
    (∀ (ops : List RegOp) (n m : String),
        isActive n (applyOps PipelineRegistry.empty ops) = true →
        isActive m (applyOps PipelineRegistry.empty ops) = true → n = m) ∧
    (∀ (r : PipelineRegistry) (n : String),
        isActive n (createOrAttach n r) = true ∧
        ∀ m, isActive m (createOrAttach n r) = true → m = n) ∧
    (∀ (r : PipelineRegistry) (n : String),
        isActive n r = false →
        deactivate n r = .error (.pipelineNotActive n)) := by
  refine ⟨?_, ?_, ?_⟩
  · intro ops n m hn hm
    simp only [isActive, beq_iff_eq] at hn hm
    rw [hn] at hm
    exact Option.some.inj hm
  · intro r n
    constructor
    · simp [isActive, createOrAttach]
    · intro m hm
      simp only [isActive, createOrAttach, beq_iff_eq] at hm
      exact (Option.some.inj hm).symm
  · intro r n h
    simp [deactivate, h]

/-- Witness for claim C3: a two-pipeline session — the second attach
deactivates the first, and deactivating the inactive first one fails. -/
theorem one_active_pipeline_witness :
    (isActive "p1" (applyOps PipelineRegistry.empty
        [.createOrAttach "p1", .createOrAttach "p2"]) = true →
      isActive "p2" (applyOps PipelineRegistry.empty
        [.createOrAttach "p1", .createOrAttach "p2"]) = true → "p1" = "p2") ∧
    (isActive "p2" (createOrAttach "p2" (createOrAttach "p1" PipelineRegistry.empty)) = true) ∧
    (deactivate "p1" (createOrAttach "p2" (createOrAttach "p1" PipelineRegistry.empty)) =
      .error (.pipelineNotActive "p1")) :=
  ⟨one_active_pipeline.1 [.createOrAttach "p1", .createOrAttach "p2"] "p1" "p2",
   (one_active_pipeline.2.1 (createOrAttach "p1" PipelineRegistry.empty) "p2").1,
   one_active_pipeline.2.2 (createOrAttach "p2" (createOrAttach "p1" PipelineRegistry.empty))
     "p1" (by decide)⟩

/-- Claim C4: reading State through a Source handle returns the state
namespace of whichever Pipeline is active at the moment of access — the
result never depends on the pipeline under which the handle was created —
and the read fails with the state-not-available error when no Pipeline is
active. -/
theorem state_binds_to_active_pipeline :
    (∀ (ps : ProcessState) (o1 o2 src : String),
        sourceStateAccess ps o1 src = sourceStateAccess ps o2 src) ∧
    (∀ (ps : ProcessState) (o src : String),
        ps.registry.activePipeline = none →
        sourceStateAccess ps o src = .error (.stateNotAvailable src)) ∧
    (∀ (ps : ProcessState) (o src p : String),
        ps.registry.activePipeline = some p →
        sourceStateAccess ps o src =
          .ok (((lookupAssoc p ps.pipelineStates).getD []
                |> lookupAssoc src).getD [])) := by
  refine ⟨?_, ?_, ?_⟩
  · intro ps o1 o2 src
    simp [sourceStateAccess]
  · intro ps o src h
    simp [sourceStateAccess, h]
  · intro ps o src p h
    simp [sourceStateAccess, h]

/-- Witness for claim C4 at a concrete process with no active pipeline. -/
theorem state_binds_to_active_pipeline_witness :
    sourceStateAccess ⟨⟨["appendix_p"], none⟩, [("appendix_p", [("s", [("k", "v")])])]⟩
        "appendix_p" "s" = .error (.stateNotAvailable "s") :=
  state_binds_to_active_pipeline.2.1
    ⟨⟨["appendix_p"], none⟩, [("appendix_p", [("s", [("k", "v")])])]⟩ "appendix_p" "s" rfl

/-- A failed job contributes its error to the failed-errors list of the
package. -/
theorem mem_failedErrors (jobs : List LoadJob) (j : LoadJob) (e : String)
    (hj : j ∈ jobs) (he : j.state = .failed e) : e ∈ failedErrors jobs := by
  induction jobs with
  | nil => cases hj
  | cons k rest ih =>
    rcases List.mem_cons.mp hj with h | h
    · subst h
      simp [failedErrors, he, jobFailedError]
    · have := ih h
      simp only [failedErrors, List.filterMap_cons] at this ⊢
      cases jobFailedError k.state <;> simp_all [failedErrors]

/-- Claim C8: when a load contains a job that ended in the failed state,
the raise-on-failed-jobs policy turns the load step into a fatal error whose
terminal cause exposes the destination name, the load id and the error of a
failed job, with the package recorded as aborted; with the policy disabled
the step completes and the failure is queryable through the has-failed-jobs
introspection of the load result. -/
theorem raise_on_failed_job (dest : String) (pkg : LoadPackage) (j : LoadJob)
    (e : String) (hj : j ∈ pkg.jobs) (he : j.state = .failed e) :
    ((runLoadStep true dest pkg).1 = .aborted ∧
      ∃ err, err ∈ failedErrors pkg.jobs ∧
        (runLoadStep true dest pkg).2 = .error ⟨"load", ⟨dest, pkg.loadId, err, true⟩⟩) ∧
    ((runLoadStep false dest pkg).1 = .loaded ∧
      (runLoadStep false dest pkg).2 = .ok ⟨dest, pkg.loadId, failedErrors pkg.jobs⟩ ∧
      LoadResult.hasFailedJobs ⟨dest, pkg.loadId, failedErrors pkg.jobs⟩ = true) := by
  have hmem : e ∈ failedErrors pkg.jobs := mem_failedErrors pkg.jobs j e hj he
  have hne : failedErrors pkg.jobs ≠ [] := by
    intro hnil
    rw [hnil] at hmem
    cases hmem
  obtain ⟨err, rest, hcons⟩ : ∃ a l, failedErrors pkg.jobs = a :: l := by
    cases hfe : failedErrors pkg.jobs with
    | nil => exact absurd hfe hne
    | cons a l => exact ⟨a, l, rfl⟩
  refine ⟨⟨?_, err, ?_, ?_⟩, ?_, ?_, ?_⟩
  · simp [runLoadStep, hcons]
  · rw [hcons]; exact List.mem_cons_self _ _
  · simp [runLoadStep, hcons]
  · simp [runLoadStep, hcons]
  · simp [runLoadStep, hcons]
  · simp [LoadResult.hasFailedJobs, hcons]

/-- Witness for claim C8 at a concrete one-job package whose job failed. -/
theorem raise_on_failed_job_witness :
    ((runLoadStep true "dummy" ⟨"load_1", [⟨"job_a", .failed "a terminal fail"⟩]⟩).1 =
        .aborted ∧
      ∃ err, err ∈ failedErrors [⟨"job_a", .failed "a terminal fail"⟩] ∧
        (runLoadStep true "dummy" ⟨"load_1", [⟨"job_a", .failed "a terminal fail"⟩]⟩).2 =
          .error ⟨"load", ⟨"dummy", "load_1", err, true⟩⟩) ∧
    ((runLoadStep false "dummy" ⟨"load_1", [⟨"job_a", .failed "a terminal fail"⟩]⟩).1 =
        .loaded ∧
      (runLoadStep false "dummy" ⟨"load_1", [⟨"job_a", .failed "a terminal fail"⟩]⟩).2 =
        .ok ⟨"dummy", "load_1", failedErrors [⟨"job_a", .failed "a terminal fail"⟩]⟩ ∧
      LoadResult.hasFailedJobs
        ⟨"dummy", "load_1", failedErrors [⟨"job_a", .failed "a terminal fail"⟩]⟩ = true) :=
  raise_on_failed_job "dummy" ⟨"load_1", [⟨"job_a", .failed "a terminal fail"⟩]⟩
    ⟨"job_a", .failed "a terminal fail"⟩ "a terminal fail" (List.mem_singleton.mpr rfl) rfl

/-- Claim C10: the load id assigned at extraction identifies the same
package through all stages — the load ids listed after extraction equal the
ids listed after normalization and the ids completed after load — the state
of each package advances extracted, normalized, loaded, and the job count of
the extracted package is carried into the normalized one. -/
theorem load_id_stable_across_stages (pkgs : List StagedPackage)
    (h : ∀ p ∈ pkgs, p.state = .extracted) :
    listNormalized (normalizeStep pkgs) = listExtracted pkgs ∧
    listCompleted (loadStep (normalizeStep pkgs)) = listExtracted pkgs ∧
    (∀ p ∈ pkgs, (⟨p.loadId, .normalized, p.newJobs⟩ : StagedPackage) ∈ normalizeStep pkgs) ∧
    (∀ p ∈ pkgs, (⟨p.loadId, .loadedPkg, p.newJobs⟩ : StagedPackage) ∈
      loadStep (normalizeStep pkgs)) := by
  induction pkgs with
  | nil => simp [listNormalized, listExtracted, listCompleted, normalizeStep, loadStep]
  | cons p rest ih =>
    have hp : p.state = .extracted := h p (List.mem_cons_self _ _)
    have hrest : ∀ q ∈ rest, q.state = .extracted :=
      fun q hq => h q (List.mem_cons_of_mem _ hq)
    obtain ⟨ih1, ih2, ih3, ih4⟩ := ih hrest
    refine ⟨?_, ?_, ?_, ?_⟩
    · simp [normalizeStep, listNormalized, listExtracted, hp] at ih1 ⊢
      exact ih1
    · simp [normalizeStep, loadStep, listCompleted, listExtracted, hp] at ih2 ⊢
      exact ih2
    · intro q hq
      rcases List.mem_cons.mp hq with hh | hh
      · subst hh
        simp [normalizeStep, hp]
      · simp only [normalizeStep, List.map_cons, List.mem_cons]
        exact Or.inr (by simpa [normalizeStep] using ih3 q hh)
    · intro q hq
      rcases List.mem_cons.mp hq with hh | hh
      · subst hh
        simp [normalizeStep, loadStep, hp]
      · simp only [normalizeStep, loadStep, List.map_cons, List.mem_cons]
        exact Or.inr (by simpa [normalizeStep, loadStep] using ih4 q hh)

/-- Witness for claim C10 at three concrete extracted packages. -/
theorem load_id_stable_across_stages_witness :
    listNormalized (normalizeStep
        [⟨"load_1", .extracted, 2⟩, ⟨"load_2", .extracted, 1⟩, ⟨"load_3", .extracted, 3⟩]) =
      listExtracted
        [⟨"load_1", .extracted, 2⟩, ⟨"load_2", .extracted, 1⟩, ⟨"load_3", .extracted, 3⟩] ∧
    listCompleted (loadStep (normalizeStep
        [⟨"load_1", .extracted, 2⟩, ⟨"load_2", .extracted, 1⟩, ⟨"load_3", .extracted, 3⟩])) =
      listExtracted
        [⟨"load_1", .extracted, 2⟩, ⟨"load_2", .extracted, 1⟩, ⟨"load_3", .extracted, 3⟩] ∧
    (∀ p ∈ [(⟨"load_1", .extracted, 2⟩ : StagedPackage), ⟨"load_2", .extracted, 1⟩,
        ⟨"load_3", .extracted, 3⟩],
      (⟨p.loadId, .normalized, p.newJobs⟩ : StagedPackage) ∈ normalizeStep
        [⟨"load_1", .extracted, 2⟩, ⟨"load_2", .extracted, 1⟩, ⟨"load_3", .extracted, 3⟩]) ∧
    (∀ p ∈ [(⟨"load_1", .extracted, 2⟩ : StagedPackage), ⟨"load_2", .extracted, 1⟩,
        ⟨"load_3", .extracted, 3⟩],
      (⟨p.loadId, .loadedPkg, p.newJobs⟩ : StagedPackage) ∈ loadStep (normalizeStep
        [⟨"load_1", .extracted, 2⟩, ⟨"load_2", .extracted, 1⟩, ⟨"load_3", .extracted, 3⟩])) :=
  load_id_stable_across_stages
    [⟨"load_1", .extracted, 2⟩, ⟨"load_2", .extracted, 1⟩, ⟨"load_3", .extracted, 3⟩]
    (by decide)

/-- A Source whose actions raise somewhere mid-drain leaves no trace: the
working copy is discarded wholesale. -/
theorem runActions_of_fail (d : PipelineData) (sn nm : String)
    (acts : List SAction) (h : SAction.fail ∈ acts) :
    runActions d sn nm acts = none := by
  induction acts generalizing d with
  | nil => cases h
  | cons a rest ih =>
    rcases List.mem_cons.mp h with hh | hh
    · subst hh
      simp [runActions, applyAction]
    · cases a with
      | addTable t cols => simp [runActions, applyAction, ih _ hh]
      | setState k v => simp [runActions, applyAction, ih _ hh]
      | fail => simp [runActions, applyAction]

/-- A Source that never raises drains to completion with some committed
result. -/
theorem runActions_of_no_fail (d : PipelineData) (sn nm : String)
    (acts : List SAction) (h : SAction.fail ∉ acts) :
    ∃ d2, runActions d sn nm acts = some d2 := by
  induction acts generalizing d with
  | nil => exact ⟨d, rfl⟩
  | cons a rest ih =>
    have ha : a ≠ SAction.fail := fun hh => h (hh ▸ List.mem_cons_self _ _)
    have hrest : SAction.fail ∉ rest := fun hh => h (List.mem_cons_of_mem _ hh)
    cases a with
    | addTable t cols => simpa [runActions, applyAction] using ih _ hrest
    | setState k v => simpa [runActions, applyAction] using ih _ hrest
    | fail => exact absurd rfl ha

/-- Claim C1: over an ordered sequence of Sources where the earlier ones
complete and a later one fails, extraction stops at the failing Source, the
Schema and State mutations of that Source are rolled back to the snapshot
taken before it ran — the committed data is exactly what the completed
Sources produced — and the reported error names the incomplete Source. -/
theorem multi_source_rollback (d : PipelineData) (done : List MSource)
    (bad : MSource) (rest : List MSource)
    (hdone : ∀ s ∈ done, SAction.fail ∉ s.actions)
    (hbad : SAction.fail ∈ bad.actions) :
    extractAll d (done ++ bad :: rest) = ((extractAll d done).1, some bad.name) ∧
    (extractAll d done).2 = none := by
  induction done generalizing d with
  | nil =>
    simp [extractAll, runSource, runActions_of_fail d bad.schemaName bad.name bad.actions hbad]
  | cons s ds ih =>
    have hs : SAction.fail ∉ s.actions := hdone s (List.mem_cons_self _ _)
    obtain ⟨d2, hd2⟩ := runActions_of_no_fail d s.schemaName s.name s.actions hs
    have hds : ∀ t ∈ ds, SAction.fail ∉ t.actions :=
      fun t ht => hdone t (List.mem_cons_of_mem _ ht)
    simpa [extractAll, runSource, hd2] using ih d2 hds

/-- Witness for claim C1: sources s3 succeeds, s4 fails after one table; the
schema of s3 is committed, the schemas of s4 are absent, the error names
s4. -/
theorem multi_source_rollback_witness :
    extractAll ⟨[], []⟩
        [⟨"data_schema_3", "default_3", [.addTable "resource_1" ["value"]]⟩,
         ⟨"data_schema_4", "default_4", [.addTable "resource_3" ["value"], .fail]⟩] =
      ((extractAll ⟨[], []⟩
          [⟨"data_schema_3", "default_3", [.addTable "resource_1" ["value"]]⟩]).1,
        some "data_schema_4") ∧
    (extractAll ⟨[], []⟩
        [⟨"data_schema_3", "default_3", [.addTable "resource_1" ["value"]]⟩]).2 = none :=
  multi_source_rollback ⟨[], []⟩
    [⟨"data_schema_3", "default_3", [.addTable "resource_1" ["value"]]⟩]
    ⟨"data_schema_4", "default_4", [.addTable "resource_3" ["value"], .fail]⟩ []
    (by decide) (by decide)

/-- Every submitted deferred computation is accounted for exactly once: the
resolved rows of a pool run are the rows of the submitted items, whatever
the worker free-times are. -/
theorem runPool_rows {α : Type} (pool : List Nat) (items : List (DeferredItem α)) :
    (runPool pool items).map Prod.snd = items.map DeferredItem.row := by
  induction items generalizing pool with
  | nil => rfl
  | cons it rest ih => simp [runPool, ih]

/-- Inserting into the completion order is a permutation. -/
theorem insertByFinish_perm {α : Type} (x : Nat × α) (l : List (Nat × α)) :
    (insertByFinish x l).Perm (x :: l) := by
  induction l with
  | nil => exact List.Perm.refl _
  | cons y rest ih =>
    by_cases h : x.1 ≤ y.1
    · simp [insertByFinish, h]
    · simp only [insertByFinish, if_neg h]
      exact (ih.cons y).trans (List.Perm.swap x y rest)

/-- Ordering resolved rows by completion time is a permutation. -/
theorem sortByFinish_perm {α : Type} (l : List (Nat × α)) :
    (sortByFinish l).Perm l := by
  induction l with
  | nil => exact List.Perm.refl _
  | cons x rest ih => exact (insertByFinish_perm x (sortByFinish rest)).trans (ih.cons x)

/-- A pool drain of any size delivers exactly the rows of the submitted
items, up to order. -/
theorem drainPool_perm {α : Type} (n : Nat) (items : List (DeferredItem α)) :
    (drainPool n items).Perm (items.map DeferredItem.row) := by
  have h := (sortByFinish_perm (runPool (List.replicate n 0) items)).map Prod.snd
  rw [runPool_rows] at h
  exact h

/-- Claim C9: draining the same deferred computations through a worker pool
of size one and through a pool of size eight delivers identical final table
contents as unordered row sets; the worker count never changes the delivered
rows. -/
theorem pool_size_never_changes_rows (α : Type) (n m : Nat)
    (items : List (DeferredItem α)) (hn : 0 < n) (hm : 0 < m) :
    Multiset.ofList (drainPool n items) = Multiset.ofList (drainPool m items) := by
  exact Quot.sound ((drainPool_perm n items).trans (drainPool_perm m items).symm)

/-- Witness for claim C9: pools of size 1 and size 8 over three deferred
rows of distinct durations. -/
theorem pool_size_never_changes_rows_witness :
    Multiset.ofList (drainPool 1 [(⟨5, 10⟩ : DeferredItem Nat), ⟨1, 20⟩, ⟨3, 30⟩]) =
      Multiset.ofList (drainPool 8 [(⟨5, 10⟩ : DeferredItem Nat), ⟨1, 20⟩, ⟨3, 30⟩]) :=
  pool_size_never_changes_rows Nat 1 8 [⟨5, 10⟩, ⟨1, 20⟩, ⟨3, 30⟩]
    (by decide) (by decide)

/-- Flattening scalar fields contributes their path-named columns, threads
the id counter through unchanged and spawns no child rows, whatever fields
follow them. -/
theorem normFields_leaves (tbl pfx : String) (selfId ctr : Nat)
    (xs : List (String × TVal)) (k : List (String × Doc)) :
    normFields tbl pfx selfId ctr (Fields.ofList (leafFields xs ++ k)) =
      ((normFields tbl pfx selfId ctr (Fields.ofList k)).1,
       leafCols pfx xs ++ (normFields tbl pfx selfId ctr (Fields.ofList k)).2.1,
       (normFields tbl pfx selfId ctr (Fields.ofList k)).2.2) := by
  induction xs with
  | nil => simp [leafFields, leafCols]
  | cons p ps ih =>
    simp only [leafFields, leafCols, List.map_cons, List.cons_append, List.append_eq,
      Fields.ofList, normFields] at ih ⊢
    rw [ih]

/-- An object of scalar fields only flattens to its columns and nothing
else. -/
theorem normFields_only_leaves (tbl pfx : String) (selfId ctr : Nat)
    (xs : List (String × TVal)) :
    normFields tbl pfx selfId ctr (Fields.ofList (leafFields xs)) =
      (ctr, leafCols pfx xs, []) := by
  have h := normFields_leaves tbl pfx selfId ctr xs []
  simpa [Fields.ofList, normFields] using h

/-- One flat-object list element becomes exactly one child row, carrying its
generated id, the parent id and the list index. -/
theorem normChild_flatObj (ctbl ptbl : String) (pid i ctr : Nat)
    (fs : List (String × TVal)) :
    normChild ctbl ptbl pid i ctr (flatObj fs) =
      (ctr + 1, [⟨ctbl, ctr, some pid, some ptbl, some i, leafCols "" fs⟩]) := by
  have h0 := normFields_leaves ctbl "" ctr (ctr + 1) fs []
  simp only [List.append_nil] at h0
  simp [flatObj, normChild, h0, Fields.ofList, normFields]

/-- A nested list of flat objects normalizes to one child row per element,
each tagged with the child table and the parent link. -/
theorem normList_flatObjs (ctbl ptbl : String) (pid ctr i : Nat)
    (es : List (List (String × TVal))) :
    (normList ctbl ptbl pid ctr i (Docs.ofList (es.map flatObj))).2.length = es.length ∧
    ∀ r ∈ (normList ctbl ptbl pid ctr i (Docs.ofList (es.map flatObj))).2,
      r.table = ctbl ∧ r.parentId = some pid ∧ r.parentTable = some ptbl := by
  induction es generalizing ctr i with
  | nil => simp [Docs.ofList, normList]
  | cons fs rest ih =>
    obtain ⟨ih1, ih2⟩ := ih (ctr + 1) (i + 1)
    simp only [List.map_cons, Docs.ofList, normList, normChild_flatObj]
    constructor
    · simp [ih1]
    · intro r hr
      rcases List.mem_cons.mp (by simpa using hr) with hh | hh
      · subst hh
        exact ⟨rfl, rfl, rfl⟩
      · exact ih2 r hh

/-- A parent table name never coincides with the name of one of its child
tables: the separator makes the child name strictly longer. -/
theorem self_ne_child (tbl f : String) : tbl ≠ tbl ++ "__" ++ f := by
  intro h
  have hlen := congrArg String.length h
  have h2 : ("__" : String).length = 2 := rfl
  simp [String.length_append, h2] at hlen
  omega

/-- Normalizing an item whose field f holds a nested list: the parent row of
the item comes first and the child rows of table tbl__f follow. -/
theorem normItem_with_list (tbl f : String) (c : Nat)
    (pre post : List (String × TVal)) (es : List (List (String × TVal))) :
    normItem tbl c (Doc.obj (Fields.ofList (leafFields pre ++
        (f, Doc.arr (Docs.ofList (es.map flatObj))) :: leafFields post))) =
      ((normList (tbl ++ "__" ++ f) tbl c (c + 1) 0 (Docs.ofList (es.map flatObj))).1,
       ⟨tbl, c, none, none, none, leafCols "" pre ++ leafCols "" post⟩ ::
         (normList (tbl ++ "__" ++ f) tbl c (c + 1) 0 (Docs.ofList (es.map flatObj))).2) := by
  have hpj : pathJoin "" f = f := by simp [pathJoin]
  simp only [normItem, normFields_leaves, Fields.ofList, normFields, hpj,
    normFields_only_leaves, List.append_nil]

/-- Claim C5: an input row in which a field holds a nested list of objects
normalizes to a child table named by joining the parent table name and the
field name with a double underscore, with one row per list element, each
child row carrying a parent-id column equal to the generated unique id of
its parent row; the inferred schema links the child table to its parent and
gives it no owning resource, while the parent table is owned by the
resource. -/
theorem nested_list_child_table (tbl f rn : String) (c : Nat)
    (pre post : List (String × TVal)) (es : List (List (String × TVal)))
    (hes : es ≠ []) :
    let out := (normItem tbl c (Doc.obj (Fields.ofList (leafFields pre ++
      (f, Doc.arr (Docs.ofList (es.map flatObj))) :: leafFields post)))).2
    let ctbl := tbl ++ "__" ++ f
    (rowsOf ctbl out).length = es.length ∧
    (∀ r ∈ rowsOf ctbl out, r.parentId = some c ∧ r.parentTable = some tbl) ∧
    out.head? = some ⟨tbl, c, none, none, none, leafCols "" pre ++ leafCols "" post⟩ ∧
    inferTableMeta rn ctbl out = some ⟨some tbl, none⟩ ∧
    inferTableMeta rn tbl out = some ⟨none, some rn⟩ := by
  intro out ctbl
  obtain ⟨hL1, hL2⟩ := normList_flatObjs (tbl ++ "__" ++ f) tbl c (c + 1) 0 es
  have hne : (tbl == tbl ++ "__" ++ f) = false := by
    simp only [beq_eq_false_iff_ne, ne_eq]
    exact self_ne_child tbl f
  have hout : out = ⟨tbl, c, none, none, none, leafCols "" pre ++ leafCols "" post⟩ ::
      (normList (tbl ++ "__" ++ f) tbl c (c + 1) 0 (Docs.ofList (es.map flatObj))).2 := by
    show (normItem tbl c _).2 = _
    rw [normItem_with_list]
  have hfilter : rowsOf ctbl out =
      (normList (tbl ++ "__" ++ f) tbl c (c + 1) 0 (Docs.ofList (es.map flatObj))).2 := by
    rw [hout]
    show List.filter _ _ = _
    rw [List.filter_cons]
    simp only [hne, if_neg]
    · exact List.filter_eq_self.mpr (fun r hr => by simp [(hL2 r hr).1])
  refine ⟨?_, ?_, ?_, ?_, ?_⟩
  · rw [hfilter, hL1]
  · intro r hr
    rw [hfilter] at hr
    exact ⟨(hL2 r hr).2.1, (hL2 r hr).2.2⟩
  · rw [hout]; rfl
  · rw [hout]
    show inferTableMeta rn ctbl _ = _
    unfold inferTableMeta
    rw [List.find?_cons]
    simp only [hne]
    have hsome : ∃ r rs,
        (normList (tbl ++ "__" ++ f) tbl c (c + 1) 0 (Docs.ofList (es.map flatObj))).2 =
          r :: rs := by
      cases hcs : (normList (tbl ++ "__" ++ f) tbl c (c + 1) 0
          (Docs.ofList (es.map flatObj))).2 with
      | nil =>
        rw [hcs] at hL1
        exact absurd (List.length_eq_zero.mp hL1.symm) hes
      | cons r rs => exact ⟨r, rs, rfl⟩
    obtain ⟨r, rs, hcs⟩ := hsome
    rw [hcs, List.find?_cons]
    have hr := hL2 r (by rw [hcs]; exact List.mem_cons_self _ _)
    simp [hr.1, hr.2.2]
  · rw [hout]
    show inferTableMeta rn tbl _ = _
    unfold inferTableMeta
    rw [List.find?_cons]
    simp

/-- Witness for claim C5 at the end-to-end example of the spec: one parent
row with column a and three child elements with column c. -/
theorem nested_list_child_table_witness :
    let out := (normItem "parent_table" 0 (Doc.obj (Fields.ofList
      (leafFields [("a", TVal.int 1)] ++
        ("items", Doc.arr (Docs.ofList
          ([[("c", TVal.int 2)], [("c", TVal.int 3)], [("c", TVal.int 4)]].map flatObj))) ::
        leafFields [])))).2
    let ctbl := "parent_table" ++ "__" ++ "items"
    (rowsOf ctbl out).length = 3 ∧
    (∀ r ∈ rowsOf ctbl out, r.parentId = some 0 ∧ r.parentTable = some "parent_table") ∧
    out.head? = some ⟨"parent_table", 0, none, none, none,
      leafCols "" [("a", TVal.int 1)] ++ leafCols "" []⟩ ∧
    inferTableMeta "nested_data" ctbl out = some ⟨some "parent_table", none⟩ ∧
    inferTableMeta "nested_data" "parent_table" out = some ⟨none, some "nested_data"⟩ :=
  nested_list_child_table "parent_table" "items" "nested_data" 0 [("a", TVal.int 1)] []
    [[("c", TVal.int 2)], [("c", TVal.int 3)], [("c", TVal.int 4)]] (by decide)

/-- A flat object normalizes to exactly its own row, whatever its values —
nothing is dropped. -/
theorem normItem_flatObj (tbl : String) (c : Nat) (xs : List (String × TVal)) :
    normItem tbl c (flatObj xs) =
      (c + 1, [⟨tbl, c, none, none, none, leafCols "" xs⟩]) := by
  simp [flatObj, normItem, normFields_only_leaves]

/-- Claim C6: a row whose fields are all absent or null still normalizes to
one emitted row whose columns are all null — it is not dropped; appending
three empty rows, then one row with a = 1 plus two empty rows, then one row
with a null plus one empty row into one table yields exactly 8 rows whose
column a carries exactly one 1 and seven nulls, every other column null. -/
theorem empty_rows_are_included :
    (∀ (tbl : String) (c : Nat) (xs : List (String × TVal)),
        (∀ p ∈ xs, p.2 = TVal.null) →
        (normItem tbl c (flatObj xs)).2 =
          [⟨tbl, c, none, none, none, leafCols "" xs⟩] ∧
        (∀ q ∈ leafCols "" xs, q.2 = TVal.null)) ∧
    (let rows1 := normalizeRun "empty_rows" 0 [flatObj [], flatObj [], flatObj []]
     let rows2 := normalizeRun "empty_rows" rows1.1
       [flatObj [("a", TVal.int 1)], flatObj [], flatObj []]
     let rows3 := normalizeRun "empty_rows" rows2.1 [flatObj [("a", TVal.null)], flatObj []]
     let allRows := rows1.2 ++ rows2.2 ++ rows3.2
     allRows.length = 8 ∧
     Multiset.ofList (allRows.map (colVal "a")) =
       Multiset.ofList [TVal.int 1, .null, .null, .null, .null, .null, .null, .null] ∧
     ∀ r ∈ allRows, ∀ q ∈ r.cols, q.1 = "a") := by
  constructor
  · intro tbl c xs h
    refine ⟨by simp [normItem_flatObj], ?_⟩
    intro q hq
    simp only [leafCols, List.mem_map] at hq
    obtain ⟨p, hp, hpq⟩ := hq
    rw [← hpq]
    exact h p hp
  · decide

/-- Witness for claim C6 at the all-null one-field row. -/
theorem empty_rows_are_included_witness :
    (normItem "empty_rows" 0 (flatObj [("a", TVal.null)])).2 =
      [⟨"empty_rows", 0, none, none, none, leafCols "" [("a", TVal.null)]⟩] ∧
    (∀ q ∈ leafCols "" [("a", TVal.null)], q.2 = TVal.null) :=
  empty_rows_are_included.1 "empty_rows" 0 [("a", TVal.null)] (by decide)

/-- Merging one item into a column list only ever appends the new columns
of the item after the established ones. -/
theorem updateColumns_eq_append (row : List (String × TVal)) (acc : List (String × ColType)) :
    updateColumns acc row = acc ++ newColsOf acc row := by
  induction row generalizing acc with
  | nil => simp [updateColumns, newColsOf]
  | cons p rest ih =>
    have hstep : updateColumns acc (p :: rest) =
        updateColumns (match inferColType p.2 with
          | none => acc
          | some t => addColumn acc p.1 t) rest := rfl
    rw [hstep]
    cases hic : inferColType p.2 with
    | none =>
      simp only [hic, newColsOf]
      exact ih acc
    | some t =>
      simp only [hic, newColsOf]
      by_cases hc : hasCol acc p.1 = true
      · simp only [addColumn, hc, if_true]
        exact ih acc
      · simp only [addColumn, hc, if_false, Bool.false_eq_true]
        rw [ih (acc ++ [(p.1, t)])]
        simp [List.append_assoc]

/-- The columns an item adds appear in the field insertion order of the
item that establishes them. -/
theorem newColsOf_sublist (row : List (String × TVal)) (acc : List (String × ColType)) :
    List.Sublist (newColsOf acc row) (rowCols row) := by
  induction row generalizing acc with
  | nil => simp [newColsOf, rowCols]
  | cons p rest ih =>
    cases hic : inferColType p.2 with
    | none =>
      simp only [newColsOf, hic, rowCols, List.filterMap_cons, Option.map_none]
      exact ih acc
    | some t =>
      simp only [newColsOf, hic, rowCols, List.filterMap_cons, Option.map_some]
      by_cases hc : hasCol acc p.1 = true
      · simp only [hc, if_true]
        exact List.Sublist.cons _ (ih acc)
      · simp only [hc, Bool.false_eq_true, if_false]
        exact List.Sublist.cons₂ _ (ih (acc ++ [(p.1, t)]))

/-- Column presence distributes over appended column lists. -/
theorem hasCol_append (acc ext : List (String × ColType)) (n : String) :
    hasCol (acc ++ ext) n = (hasCol acc n || hasCol ext n) := by
  simp [hasCol, List.any_append]

/-- An established column survives every further item merge. -/
theorem hasCol_updateColumns_mono (acc : List (String × ColType))
    (row : List (String × TVal)) (n : String) (h : hasCol acc n = true) :
    hasCol (updateColumns acc row) n = true := by
  rw [updateColumns_eq_append, hasCol_append, h, Bool.true_or]

/-- Merging an item establishes a column for each of its typed fields. -/
theorem hasCol_updateColumns_covers (acc : List (String × ColType))
    (row : List (String × TVal)) (p : String × TVal) (t : ColType)
    (hp : p ∈ row) (ht : inferColType p.2 = some t) :
    hasCol (updateColumns acc row) p.1 = true := by
  induction row generalizing acc with
  | nil => cases hp
  | cons q rest ih =>
    have hstep : updateColumns acc (q :: rest) =
        updateColumns (match inferColType q.2 with
          | none => acc
          | some t => addColumn acc q.1 t) rest := rfl
    rw [hstep]
    rcases List.mem_cons.mp hp with hh | hh
    · subst hh
      rw [ht]
      have hbase : hasCol (addColumn acc p.1 t) p.1 = true := by
        by_cases hc : hasCol acc p.1 = true
        · simp [addColumn, hc]
        · rw [show addColumn acc p.1 t = acc ++ [(p.1, t)] from by simp [addColumn, hc]]
          rw [hasCol_append]
          simp [hasCol]
      exact hasCol_updateColumns_mono _ rest p.1 hbase
    · cases hic : inferColType q.2 with
      | none => exact ih _ hh
      | some u => exact ih _ hh

/-- An item whose typed fields are all established merges as a no-op. -/
theorem updateColumns_of_covered (acc : List (String × ColType))
    (row : List (String × TVal))
    (h : ∀ p ∈ row, ∀ t, inferColType p.2 = some t → hasCol acc p.1 = true) :
    updateColumns acc row = acc := by
  induction row generalizing acc with
  | nil => rfl
  | cons q rest ih =>
    have hstep : updateColumns acc (q :: rest) =
        updateColumns (match inferColType q.2 with
          | none => acc
          | some t => addColumn acc q.1 t) rest := rfl
    rw [hstep]
    cases hic : inferColType q.2 with
    | none =>
      exact ih acc (fun p hp => h p (List.mem_cons_of_mem _ hp))
    | some u =>
      have hq : hasCol acc q.1 = true := h q (List.mem_cons_self _ _) u hic
      simp only [addColumn, hq, if_true]
      exact ih acc (fun p hp => h p (List.mem_cons_of_mem _ hp))

/-- An established column survives a whole re-extraction. -/
theorem hasCol_updateTable_mono (acc : List (String × ColType))
    (rows : List (List (String × TVal))) (n : String) (h : hasCol acc n = true) :
    hasCol (updateTable acc rows) n = true := by
  induction rows generalizing acc with
  | nil => exact h
  | cons row rest ih =>
    exact ih _ (hasCol_updateColumns_mono acc row n h)

/-- After an extraction pass, every typed field of every item has its
column established. -/
theorem updateTable_covers (acc : List (String × ColType))
    (rows : List (List (String × TVal))) (row : List (String × TVal))
    (hrow : row ∈ rows) (p : String × TVal) (t : ColType)
    (hp : p ∈ row) (ht : inferColType p.2 = some t) :
    hasCol (updateTable acc rows) p.1 = true := by
  induction rows generalizing acc with
  | nil => cases hrow
  | cons r rest ih =>
    rcases List.mem_cons.mp hrow with hh | hh
    · subst hh
      exact hasCol_updateTable_mono _ rest p.1
        (hasCol_updateColumns_covers acc row p t hp ht)
    · exact ih _ hh

/-- A pass over items whose typed fields are all established is a no-op on
the column list. -/
theorem updateTable_of_covered (acc : List (String × ColType))
    (rows : List (List (String × TVal)))
    (h : ∀ row ∈ rows, ∀ p ∈ row, ∀ t, inferColType p.2 = some t →
      hasCol acc p.1 = true) :
    updateTable acc rows = acc := by
  induction rows with
  | nil => rfl
  | cons r rest ih =>
    have hr : updateColumns acc r = acc :=
      updateColumns_of_covered acc r (h r (List.mem_cons_self _ _))
    show updateTable (updateColumns acc r) rest = acc
    rw [hr]
    exact ih (fun row hrow => h row (List.mem_cons_of_mem _ hrow))

/-- Merging an item into a column list depends only on the shape of the
item, never on its values. -/
theorem updateColumns_shape (r1 r2 : List (String × TVal))
    (acc : List (String × ColType)) (h : rowShape r1 = rowShape r2) :
    updateColumns acc r1 = updateColumns acc r2 := by
  induction r1 generalizing r2 acc with
  | nil =>
    cases r2 with
    | nil => rfl
    | cons q qs => simp [rowShape] at h
  | cons p ps ih =>
    cases r2 with
    | nil => simp [rowShape] at h
    | cons q qs =>
      simp only [rowShape, List.map_cons, List.cons.injEq, Prod.mk.injEq] at h
      obtain ⟨⟨h1, h2⟩, h3⟩ := h
      have hstep1 : updateColumns acc (p :: ps) =
          updateColumns (match inferColType p.2 with
            | none => acc
            | some t => addColumn acc p.1 t) ps := rfl
      have hstep2 : updateColumns acc (q :: qs) =
          updateColumns (match inferColType q.2 with
            | none => acc
            | some t => addColumn acc q.1 t) qs := rfl
      rw [hstep1, hstep2, ← h2, ← h1]
      cases inferColType p.2 with
      | none => exact ih qs acc h3
      | some t => exact ih qs _ h3

/-- An extraction pass depends only on the shapes of its items. -/
theorem updateTable_shape (rows1 rows2 : List (List (String × TVal)))
    (acc : List (String × ColType))
    (h : rows2.map rowShape = rows1.map rowShape) :
    updateTable acc rows2 = updateTable acc rows1 := by
  induction rows1 generalizing rows2 acc with
  | nil =>
    cases rows2 with
    | nil => rfl
    | cons q qs => simp at h
  | cons r rest ih =>
    cases rows2 with
    | nil => simp at h
    | cons q qs =>
      simp only [List.map_cons, List.cons.injEq] at h
      obtain ⟨h1, h2⟩ := h
      show updateTable (updateColumns acc q) qs = updateTable (updateColumns acc r) rest
      rw [updateColumns_shape q r acc h1]
      exact ih qs _ h2

/-- Claim C7: the column order of a table follows the field insertion order
of the items that first established the columns — merging an item only ever
appends its genuinely new columns, in field order, after the established
ones — and re-extracting data of identical shape changes neither the
established column order nor the column types. -/
theorem column_order_stable :
    (∀ (acc : List (String × ColType)) (row : List (String × TVal)),
        updateColumns acc row = acc ++ newColsOf acc row ∧
        List.Sublist (newColsOf acc row) (rowCols row)) ∧
    (∀ (init : List (String × ColType)) (rows rows2 : List (List (String × TVal))),
        rows2.map rowShape = rows.map rowShape →
        updateTable (updateTable init rows) rows2 = updateTable init rows) := by
  refine ⟨fun acc row => ⟨updateColumns_eq_append row acc, newColsOf_sublist row acc⟩, ?_⟩
  intro init rows rows2 h
  rw [updateTable_shape rows rows2 _ h]
  exact updateTable_of_covered _ rows (fun row hrow p hp t ht =>
    updateTable_covers init rows row hrow p t hp ht)

/-- Witness for claim C7: re-extracting an identically shaped row leaves the
established columns untouched. -/
theorem column_order_stable_witness :
    updateTable (updateTable []
        [[("col_1", TVal.int 1), ("col_2", TVal.int 2), ("col_3", TVal.str "list")]])
      [[("col_1", TVal.int 7), ("col_2", TVal.int 8), ("col_3", TVal.str "x")]] =
      updateTable []
        [[("col_1", TVal.int 1), ("col_2", TVal.int 2), ("col_3", TVal.str "list")]] :=
  column_order_stable.2 []
    [[("col_1", TVal.int 1), ("col_2", TVal.int 2), ("col_3", TVal.str "list")]]
    [[("col_1", TVal.int 7), ("col_2", TVal.int 8), ("col_3", TVal.str "x")]]
    (by decide)

end Dlt
